import Mathlib

/-!
A verification development for the core of the `randomart` repository: the
expression-node evaluator and coordinate state (package `nodes`), the grammar
model with its weighted generator (`nodes/grammar.go`), and the frame-rendering
pipeline with its options (package `render`).

Modelling conventions:

* Go `float64` values are modelled by `FP`: exact rationals extended with
  `posInf`, `negInf` and `nan`.  Rounding of finite results is not modelled
  (the properties proved here are independent of it), but the IEEE-754
  special cases the code relies on are: division by zero giving `±Inf`/`NaN`,
  `NaN` propagation, and comparisons involving `NaN` being false.  Signed
  zero is not distinguished.
* The seeded `math/rand/v2` PCG source is modelled by `Rng`: a deterministic
  stream of rationals (each in `[0,1)` for a run started from a real seed)
  plus a cursor; `Float64()` pops the next stream element.
* The concurrent pipeline in `frames` is modelled by its reassembly loop as a
  pure function of the order in which worker results arrive on the results
  channel; every interleaving of the workers corresponds to one arrival list.
-/

/-- A Go `float64`: an exact rational or one of the IEEE-754 special values. -/
inductive FP where
  | num (q : ℚ)
  | posInf
  | negInf
  | nan
  deriving DecidableEq, Repr

namespace FP

def neg : FP → FP
  | num q => num (-q)
  | posInf => negInf
  | negInf => posInf
  | nan => nan

def add : FP → FP → FP
  | nan, _ => nan
  | _, nan => nan
  | num a, num b => num (a + b)
  | num _, posInf => posInf
  | num _, negInf => negInf
  | posInf, num _ => posInf
  | negInf, num _ => negInf
  | posInf, posInf => posInf
  | negInf, negInf => negInf
  | posInf, negInf => nan
  | negInf, posInf => nan

def sub (a b : FP) : FP := add a (neg b)

def mul : FP → FP → FP
  | nan, _ => nan
  | _, nan => nan
  | num a, num b => num (a * b)
  | num a, posInf => if 0 < a then posInf else if a < 0 then negInf else nan
  | num a, negInf => if 0 < a then negInf else if a < 0 then posInf else nan
  | posInf, num b => if 0 < b then posInf else if b < 0 then negInf else nan
  | negInf, num b => if 0 < b then negInf else if b < 0 then posInf else nan
  | posInf, posInf => posInf
  | posInf, negInf => negInf
  | negInf, posInf => negInf
  | negInf, negInf => posInf

def div : FP → FP → FP
  | nan, _ => nan
  | _, nan => nan
  | num a, num b =>
    if b = 0 then (if a = 0 then nan else if 0 < a then posInf else negInf)
    else num (a / b)
  | num _, posInf => num 0
  | num _, negInf => num 0
  | posInf, num b => if b < 0 then negInf else posInf
  | negInf, num b => if b < 0 then posInf else negInf
  | posInf, posInf => nan
  | posInf, negInf => nan
  | negInf, posInf => nan
  | negInf, negInf => nan

/-- Truncation toward zero, as Go's `float64` → integer conversion. -/
def qtrunc (q : ℚ) : ℤ := if 0 ≤ q then ⌊q⌋ else ⌈q⌉

/-- Go `math.Mod(x, y)`: `NaN` when `x` is `±Inf` or either is `NaN` or
`y = 0`; `x` when `y` is `±Inf`; otherwise the remainder with the sign of
`x`, computed as `x - y * trunc(x/y)`. -/
def mod : FP → FP → FP
  | num a, num b => if b = 0 then nan else num (a - b * qtrunc (a / b))
  | num a, posInf => num a
  | num a, negInf => num a
  | _, _ => nan

/-- `<` on `float64`: false whenever `NaN` is involved. -/
def flt : FP → FP → Bool
  | num a, num b => decide (a < b)
  | num _, posInf => true
  | num _, negInf => false
  | posInf, num _ => false
  | negInf, num _ => true
  | posInf, posInf => false
  | negInf, negInf => false
  | negInf, posInf => true
  | posInf, negInf => false
  | nan, _ => false
  | _, nan => false

/-- `<=` on `float64`: false whenever `NaN` is involved. -/
def fle : FP → FP → Bool
  | num a, num b => decide (a ≤ b)
  | num _, posInf => true
  | num _, negInf => false
  | posInf, num _ => false
  | negInf, num _ => true
  | posInf, posInf => true
  | negInf, negInf => true
  | negInf, posInf => true
  | posInf, negInf => false
  | nan, _ => false
  | _, nan => false

end FP

/-- The six coordinate components `x,y,f,r,g,b` (`componentType`). -/
inductive ComponentType where
  | x | y | f | r | g | b
  deriving DecidableEq, Repr

/-- The per-pixel coordinate state (`State`): six `float64` scalars. -/
structure State where
  X : FP
  Y : FP
  F : FP
  R : FP
  G : FP
  B : FP
  deriving DecidableEq, Repr

/-- `State.component`: look up one scalar by component kind. -/
def State.component (s : State) : ComponentType → FP
  | .x => s.X
  | .y => s.Y
  | .f => s.F
  | .r => s.R
  | .g => s.G
  | .b => s.B

/-- A source position carried by nodes for diagnostics (`pos`). -/
structure SrcPos where
  file : String
  line : ℕ
  deriving DecidableEq, Repr

/-- A source-image sample as returned by `color.Color.RGBA()`:
16-bit channels in `[0, 0xFFFF]`. -/
structure SrcColor where
  r : ℕ
  g : ℕ
  b : ℕ
  deriving DecidableEq, Repr

/-- `S(x, y, width, height, frame, frames, src)`: build the coordinate state.
Each axis is `float64(i)/float64(N-1)*2 - 1`, with no special case for
`N = 1` (where the division is `0/0`); the sample channels are
`float64(c)/0xFFFF*2 - 1`. -/
def mkState (x y width height frame frames : ℤ) (src : SrcColor) : State where
  X := FP.sub (FP.mul (FP.div (FP.num (x : ℚ)) (FP.num ((width - 1 : ℤ) : ℚ))) (FP.num 2)) (FP.num 1)
  Y := FP.sub (FP.mul (FP.div (FP.num (y : ℚ)) (FP.num ((height - 1 : ℤ) : ℚ))) (FP.num 2)) (FP.num 1)
  F := FP.sub (FP.mul (FP.div (FP.num (frame : ℚ)) (FP.num ((frames - 1 : ℤ) : ℚ))) (FP.num 2)) (FP.num 1)
  R := FP.sub (FP.mul (FP.div (FP.num (src.r : ℚ)) (FP.num 0xFFFF)) (FP.num 2)) (FP.num 1)
  G := FP.sub (FP.mul (FP.div (FP.num (src.g : ℚ)) (FP.num 0xFFFF)) (FP.num 2)) (FP.num 1)
  B := FP.sub (FP.mul (FP.div (FP.num (src.b : ℚ)) (FP.num 0xFFFF)) (FP.num 2)) (FP.num 1)

/-- The nine binary operators (`opType`). -/
inductive OpType where
  | add | sub | mul | div | mod | gt | ge | lt | le
  deriving DecidableEq, Repr

/-- Evaluation-time expression nodes: the implementations of the `Node`
interface (`value[float64]`, `value[bool]`, `component`, `op`, `triple`,
`ifThenElse`). -/
inductive Node where
  | numv (p : SrcPos) (v : FP)
  | boolv (p : SrcPos) (v : Bool)
  | comp (p : SrcPos) (c : ComponentType)
  | opn (p : SrcPos) (t : OpType) (left right : Node)
  | triple (p : SrcPos) (one two three : Node)
  | ite (p : SrcPos) (cond thn els : Node)
  deriving DecidableEq, Repr

/-- The shape a node failed to reduce to (`notA`). -/
inductive NotA where
  | number | boolean | root
  deriving DecidableEq, Repr

/-- `ValidationError`: the offending node plus the shape it is not. -/
structure ValidationError where
  node : Node
  is : NotA
  deriving DecidableEq, Repr

/-- `isNumber`: require a `value[float64]` node. -/
def isNumber : Node → Except ValidationError FP
  | .numv _ v => .ok v
  | n => .error ⟨n, .number⟩

/-- `isBoolean`: require a `value[bool]` node. -/
def isBoolean : Node → Except ValidationError Bool
  | .boolv _ v => .ok v
  | n => .error ⟨n, .boolean⟩

/-- The operator switch in `op.Eval`: arithmetic yields a number node,
comparisons a boolean node. -/
def opApply (p : SrcPos) (t : OpType) (a b : FP) : Node :=
  match t with
  | .add => .numv p (FP.add a b)
  | .sub => .numv p (FP.sub a b)
  | .mul => .numv p (FP.mul a b)
  | .div => .numv p (FP.div a b)
  | .mod => .numv p (FP.mod a b)
  | .gt => .boolv p (FP.flt b a)
  | .ge => .boolv p (FP.fle b a)
  | .lt => .boolv p (FP.flt a b)
  | .le => .boolv p (FP.fle a b)

/-- `Eval` on evaluation-time nodes.  Values return themselves; components
look up the state; operators evaluate left then right and require numbers;
triples evaluate all three children left to right; `ifThenElse` evaluates the
condition, requires a boolean, and then evaluates exactly one branch. -/
def evalNode : Node → State → Except ValidationError Node
  | .numv p v, _ => .ok (.numv p v)
  | .boolv p v, _ => .ok (.boolv p v)
  | .comp p c, s => .ok (.numv p (s.component c))
  | .opn p t l r, s => do
    let ln ← evalNode l s
    let rn ← evalNode r s
    let a ← isNumber ln
    let b ← isNumber rn
    return opApply p t a b
  | .triple p a b c, s => do
    let an ← evalNode a s
    let bn ← evalNode b s
    let cn ← evalNode c s
    return .triple p an bn cn
  | .ite _ c t e, s => do
    let cn ← evalNode c s
    let cv ← isBoolean cn
    if cv then evalNode t s else evalNode e s

/-- `IsRoot`: the evaluated root must be a triple of three numbers. -/
def isRoot : Node → Except ValidationError (FP × FP × FP)
  | .triple _ a b c => do
    let x ← isNumber a
    let y ← isNumber b
    let z ← isNumber c
    return (x, y, z)
  | n => .error ⟨n, .root⟩

/-- An 8-bit RGBA color (`color.RGBA`). -/
structure Color where
  r : ℕ
  g : ℕ
  b : ℕ
  a : ℕ
  deriving DecidableEq, Repr

/-- Go `uint8(f)` for `f : float64`: truncation for values in `[0, 256)`;
out-of-range and special values are implementation-dependent in Go and are
modelled as `0`. -/
def fpToUInt8 : FP → ℕ
  | .num q => if 0 ≤ q ∧ q < 256 then (⌊q⌋).toNat else 0
  | _ => 0

/-- One color channel of `renderPoint`: `uint8((v + 1) / 2 * 255)`. -/
def chan (v : FP) : ℕ :=
  fpToUInt8 (FP.mul (FP.div (FP.add v (FP.num 1)) (FP.num 2)) (FP.num 255))

/-- `renderPoint`: evaluate the shared root against one pixel state, validate
the root-triple shape, and map the three numbers to an opaque color. -/
def renderPoint (root : Node) (s : State) : Except ValidationError Color := do
  let n ← evalNode root s
  let (r, g, b) ← isRoot n
  return ⟨chan r, chan g, chan b, 255⟩

/-- A decoded in-memory image: Go's `*image.Uniform` (an infinite uniform
color, the default source) or a concrete raster with bounds `dx × dy`. -/
inductive Image where
  | uniform (c : SrcColor)
  | raster (dx dy : ℕ) (pix : ℕ → ℕ → SrcColor)

/-- `src.At(x, y)` as a 16-bit-channel sample. -/
def Image.sample : Image → ℕ → ℕ → SrcColor
  | .uniform c, _, _ => c
  | .raster _ _ pix, x, y => pix x y

/-- `color.White` under `RGBA()`. -/
def whiteColor : SrcColor := ⟨0xFFFF, 0xFFFF, 0xFFFF⟩

/-- The body of one frame job in `frames`: rasterize every pixel of one frame
(`y` outer, `x` inner, via `points`), stopping at the first failing pixel. -/
def renderFrame (root : Node) (width height frame framesN : ℕ) (src : Image) :
    Except ValidationError (List (List Color)) :=
  (List.range height).mapM fun y =>
    (List.range width).mapM fun x =>
      renderPoint root
        (mkState (x : ℕ) (y : ℕ) width height frame framesN (src.sample x y))

/-- Grammar-time expression templates: the `Alternate` union (`Number`,
`Bool`, `Component`, `Triplet`, `Rule`, `Random`, `Func`, `IfThenElse`).
Number literals in grammar text are finite, so a rational carries the value. -/
inductive Alt where
  | num (p : SrcPos) (v : ℚ)
  | bool (p : SrcPos) (v : Bool)
  | comp (p : SrcPos) (c : ComponentType)
  | triplet (p : SrcPos) (one two three : Alt)
  | rule (p : SrcPos) (name : String)
  | random (p : SrcPos)
  | func (p : SrcPos) (t : OpType) (left right : Alt)
  | ite (p : SrcPos) (cond thn els : Alt)
  deriving DecidableEq, Repr

/-- Structural size of a template, used as a termination measure for the
generator's recursion over sub-templates. -/
def Alt.size : Alt → ℕ
  | .triplet _ a b c => a.size + b.size + c.size + 1
  | .func _ _ l r => l.size + r.size + 1
  | .ite _ c t e => c.size + t.size + e.size + 1
  | _ => 1

/-- `AlternateWithProb`: one weighted alternative of a production. -/
structure AltProb where
  alt : Alt
  prob : ℚ
  deriving DecidableEq, Repr

/-- `Production` as parsed: a name plus weighted alternatives. -/
structure ProductionT where
  pos : SrcPos
  name : String
  alternatives : List AltProb
  deriving DecidableEq, Repr

/-- The comparator handed to `slices.SortFunc` over a production's
alternatives: `int(a.Probability - b.Probability)`, i.e. the probability
difference truncated toward zero.  Two probabilities less than 1 apart
compare as equal. -/
def altCmp (a b : AltProb) : ℤ := FP.qtrunc (a.prob - b.prob)

/-- Insertion step: the new element moves left only past elements the
comparator ranks strictly after it, so comparator-equal elements keep their
original relative order — exactly the insertion sort `slices.SortFunc` runs
on the short alternative slices of a grammar. -/
def insertCmp (r : AltProb) : List AltProb → List AltProb
  | [] => [r]
  | b :: bs => if altCmp r b < 0 then r :: b :: bs else b :: insertCmp r bs

/-- The `slices.SortFunc(p.Alternatives, altCmp)` call of the resolution
loop, as a left-to-right insertion sort. -/
def sortAlts (l : List AltProb) : List AltProb :=
  l.foldl (fun acc r => insertCmp r acc) []

/-- Load-time grammar rejections raised in `Grammar.Gen` before sampling. -/
inductive ResolveErr where
  | duplicateProduction (name : String)
  | weightsExceedOne (name : String)
  | emptyGrammar
  deriving DecidableEq, Repr

/-- `production`: a production after resolution, with sorted alternatives,
the cumulative-probability table `totals` and the total mass `max`. -/
structure ResolvedProd where
  name : String
  alts : List AltProb
  totals : List ℚ
  max : ℚ
  deriving DecidableEq, Repr

/-- The totals loop of resolution: accumulate the cumulative mass, rejecting
the production as soon as the running mass exceeds 1. -/
def mkTotals (name : String) : List AltProb → ℚ → Except ResolveErr (List ℚ × ℚ)
  | [], m => .ok ([], m)
  | a :: rest, m =>
    let m2 := m + a.prob
    if 1 < m2 then .error (.weightsExceedOne name)
    else do
      let (ts, mf) ← mkTotals name rest m2
      return (m2 :: ts, mf)

/-- The resolution loop of `Grammar.Gen`: reject duplicate names, sort each
production's alternatives with `altCmp`, and precompute `totals` and `max`. -/
def resolveLoop (acc : List (String × ResolvedProd)) :
    List ProductionT → Except ResolveErr (List (String × ResolvedProd))
  | [] => .ok acc
  | p :: rest =>
    if (acc.find? (fun kv => kv.1 == p.name)).isSome then
      .error (.duplicateProduction p.name)
    else
      let sorted := sortAlts p.alternatives
      match mkTotals p.name sorted 0 with
      | .error e => .error e
      | .ok (ts, m) => resolveLoop (acc ++ [(p.name, ⟨p.name, sorted, ts, m⟩)]) rest

/-- The seeded random source: a deterministic stream plus a cursor.
`Float64()` returns the element under the cursor and advances it. -/
structure Rng where
  stream : ℕ → ℚ
  idx : ℕ

/-- One `Float64()` draw. -/
def Rng.next (r : Rng) : ℚ × Rng := (r.stream r.idx, ⟨r.stream, r.idx + 1⟩)

/-- Generation-time errors: `ErrReachedMaxDepth`,
`ErrReachedMaxGenerationTries` and `ErrRuleDoesNotExist`. -/
inductive GErr where
  | maxDepth
  | maxTries
  | ruleNotExist (name : String)
  deriving DecidableEq, Repr

/-- The parts of `GeneratorState` the sampling step reads: the resolved rule
table and the per-production try budget. -/
structure GenCtx where
  rules : List (String × ResolvedProd)
  maxTries : ℕ

/-- `state.rules[name]` lookup. -/
def GenCtx.lookupRule (ctx : GenCtx) (name : String) : Option ResolvedProd :=
  (ctx.rules.find? (fun kv => kv.1 == name)).map Prod.snd

/-- `sort.Search` as run by `slices.BinarySearch(totals, x)`: binary search
for the least index in `[lo, hi)` whose entry is `≥ x` (or `hi` if none). -/
def searchLoop (totals : List ℚ) (x : ℚ) (lo hi : ℕ) : ℕ :=
  if lo < hi then
    if totals.getD ((lo + hi) / 2) 0 < x then searchLoop totals x ((lo + hi) / 2 + 1) hi
    else searchLoop totals x lo ((lo + hi) / 2)
  else lo
termination_by hi - lo
decreasing_by all_goals omega

/-- Alternative selection in `Production.Gen`: binary-search the cumulative
table for the drawn value, then clamp to the last alternative.  (For an empty
alternatives list Go would index at `-1` and panic; the parser guarantees at
least one alternative per production.) -/
def selectIndex (prod : ResolvedProd) (x : ℚ) : ℕ :=
  min (searchLoop prod.totals x 0 prod.totals.length) (prod.alts.length - 1)

/-- Fallback element for list indexing (Go panics out of bounds; never
reached for grammars the parser accepts). -/
def dummyAlt : AltProb := ⟨.random ⟨"", 0⟩, 0⟩

mutual

/-- `Gen` on grammar-time templates, one case per `Alternate` variant:
leaves build value/component nodes directly; `Random` draws one stream value
`u` and bakes the constant `u*2 - 1` into a number node; `Triplet`, `Func`
and `IfThenElse` generate their sub-templates left to right at the same
depth, propagating the first error; a `Rule` reference looks the production
up (failing with the undefined-rule error) and enters it at the same depth. -/
def genAlt (ctx : GenCtx) : Alt → Rng → ℕ → Rng × Except GErr Node
  | .num p v, st, _ => (st, .ok (.numv p (FP.num v)))
  | .bool p v, st, _ => (st, .ok (.boolv p v))
  | .comp p c, st, _ => (st, .ok (.comp p c))
  | .random p, st, _ =>
    let (u, st2) := st.next
    (st2, .ok (.numv p (FP.num (u * 2 - 1))))
  | .rule _ name, st, depth =>
    match ctx.lookupRule name with
    | none => (st, .error (.ruleNotExist name))
    | some prod => genProd ctx prod st depth
  | .triplet p a b c, st, depth =>
    match genAlt ctx a st depth with
    | (st1, .error e) => (st1, .error e)
    | (st1, .ok an) =>
      match genAlt ctx b st1 depth with
      | (st2, .error e) => (st2, .error e)
      | (st2, .ok bn) =>
        match genAlt ctx c st2 depth with
        | (st3, .error e) => (st3, .error e)
        | (st3, .ok cn) => (st3, .ok (.triple p an bn cn))
  | .func p t l r, st, depth =>
    match genAlt ctx l st depth with
    | (st1, .error e) => (st1, .error e)
    | (st1, .ok ln) =>
      match genAlt ctx r st1 depth with
      | (st2, .error e) => (st2, .error e)
      | (st2, .ok rn) => (st2, .ok (.opn p t ln rn))
  | .ite p c t e, st, depth =>
    match genAlt ctx c st depth with
    | (st1, .error er) => (st1, .error er)
    | (st1, .ok cn) =>
      match genAlt ctx t st1 depth with
      | (st2, .error er) => (st2, .error er)
      | (st2, .ok tn) =>
        match genAlt ctx e st2 depth with
        | (st3, .error er) => (st3, .error er)
        | (st3, .ok en) => (st3, .ok (.ite p cn tn en))
termination_by t _ depth => (depth, 2, t.size)
decreasing_by all_goals (simp [Prod.lex_def, Alt.size] <;> omega)

/-- `Production.Gen`: fail with the max-depth error once the remaining depth
is exhausted (`depth <= 0`), otherwise run the try loop; the loop body
generates the chosen alternative at `depth - 1`. -/
def genProd (ctx : GenCtx) (prod : ResolvedProd) (st : Rng) (depth : ℕ) :
    Rng × Except GErr Node :=
  match depth with
  | 0 => (st, .error .maxDepth)
  | d + 1 => genProdTries ctx prod st d ctx.maxTries
termination_by (depth, 1, 0)
decreasing_by all_goals simp [Prod.lex_def]

/-- The try loop of `Production.Gen` (`d` is the already-decremented depth at
which the chosen alternative is generated).  Each try draws
`x = Float64() * max`, selects an alternative index via the clamped binary
search, and generates that alternative: success returns immediately, an
undefined-rule error propagates immediately, and any other failure is
retried.  Exhausting the budget yields the max-tries error. -/
def genProdTries (ctx : GenCtx) (prod : ResolvedProd) (st : Rng) (d : ℕ) :
    ℕ → Rng × Except GErr Node
  | 0 => (st, .error .maxTries)
  | tries + 1 =>
    let (u, st2) := st.next
    let a := prod.alts.getD (selectIndex prod (u * prod.max)) dummyAlt
    match genAlt ctx a.alt st2 d with
    | (st3, .ok n) => (st3, .ok n)
    | (st3, .error e) =>
      match e with
      | .ruleNotExist name => (st3, .error (.ruleNotExist name))
      | _ => genProdTries ctx prod st3 d tries
termination_by tries => (d + 1, 0, tries)
decreasing_by all_goals simp [Prod.lex_def]

end

/-- `generatorStateOptions` less the seed (carried by the `Rng` stream).
Go's `MaxDepth` is an `int`; because `Production.Gen` guards `depth <= 0`, a
non-positive configured depth behaves exactly like `0`, so the model uses `ℕ`. -/
structure GenOptions where
  maxDepth : ℕ
  maxGenerationTries : ℕ
  deriving DecidableEq, Repr

/-- The error sum returned by `Grammar.Gen`: a load-time rejection or a
generation failure. -/
inductive GenTopErr where
  | resolve (e : ResolveErr)
  | gen (e : GErr)
  deriving DecidableEq, Repr

/-- `Grammar.Gen`: resolve all productions, then generate the first
production (the start rule) at the configured max depth.  The two
`emptyGrammar` arms are unreachable for parser-produced grammars (at least
one production, and resolution inserts every production into the table). -/
def grammarGen (prods : List ProductionT) (o : GenOptions) (stream : ℕ → ℚ) :
    Except GenTopErr Node :=
  match resolveLoop [] prods with
  | .error e => .error (.resolve e)
  | .ok rules =>
    match prods with
    | [] => .error (.resolve .emptyGrammar)
    | p0 :: _ =>
      let ctx : GenCtx := ⟨rules, o.maxGenerationTries⟩
      match ctx.lookupRule p0.name with
      | none => .error (.resolve .emptyGrammar)
      | some prod =>
        match genProd ctx prod ⟨stream, 0⟩ o.maxDepth with
        | (_, .ok n) => .ok n
        | (_, .error e) => .error (.gen e)

/-- `frameResult`: a completed frame job tagged with its frame index and
carrying the rendered image or an error.  (`timeTaken` feeds only the
progress log and is omitted.)  The image type is a parameter so pipeline
facts hold for any image representation. -/
structure FrameRes (α : Type) (ε : Type) where
  frame : ℕ
  img : α
  err : Option ε
  deriving DecidableEq, Repr

/-- One element the `frames` iterator yields to its consumer: a frame image,
or the error that aborts the run. -/
inductive Out (α : Type) (ε : Type) where
  | img (a : α)
  | err (e : ε)
  deriving DecidableEq, Repr

/-- Ordered insert keyed by frame index.  Frame indices in the reassembly
buffer are pairwise distinct, so any comparison sort — `slices.SortFunc`
with the `a.frame - b.frame` comparator included — yields this unique
ascending order. -/
def insertByFrame {α ε : Type} (r : FrameRes α ε) :
    List (FrameRes α ε) → List (FrameRes α ε)
  | [] => [r]
  | b :: bs => if r.frame ≤ b.frame then r :: b :: bs else b :: insertByFrame r bs

/-- `sortBuf`: sort the reassembly buffer ascending by frame index. -/
def sortBuf {α ε : Type} (buf : List (FrameRes α ε)) : List (FrameRes α ε) :=
  buf.foldl (fun acc r => insertByFrame r acc) []

/-- The inner drain loop of the reassembly stage: pop and emit buffered
results while the head of the (sorted) buffer is the next expected frame.
Returns the emissions, the new expected index, and the remaining buffer. -/
def drainBuf {α ε : Type} : List (FrameRes α ε) → ℕ →
    List (Out α ε) × ℕ × List (FrameRes α ε)
  | [], e => ([], e, [])
  | f :: fs, e =>
    if f.frame = e then
      let (os, e2, b2) := drainBuf fs (e + 1)
      (Out.img f.img :: os, e2, b2)
    else ([], e, f :: fs)

/-- The reassembly loop of `frames`, as a function of the worker results in
their arrival order on the results channel.  While fewer than `n` frames
have been emitted: a result carrying an error is yielded to the consumer
and the pipeline stops, buffered frames included; an early result is
buffered, keeping the buffer sorted by frame index; the expected result is
emitted, followed by every buffered result that has become next in line.
An exhausted arrival list is where the Go loop would block on the channel. -/
def frameLoop {α ε : Type} (n : ℕ) :
    List (FrameRes α ε) → ℕ → List (FrameRes α ε) → List (Out α ε)
  | arrivals, expected, buf =>
    if n ≤ expected then []
    else
      match arrivals with
      | [] => []
      | r :: rest =>
        match r.err with
        | some e => [Out.err e]
        | none =>
          if r.frame = expected then
            let (os, e2, b2) := drainBuf buf (expected + 1)
            Out.img r.img :: (os ++ frameLoop n rest e2 b2)
          else frameLoop n rest expected (sortBuf (buf ++ [r]))

/-- `renderOptions`.  The progress logger is omitted: it only wraps log
printing.  Width, height and frame count are Go `int`s. -/
structure RenderOpts where
  width : ℤ
  height : ℤ
  frames : ℤ
  src : Image

/-- `defaultRenderOptions`: 400×400, one frame, uniform white source. -/
def defaultRenderOptions : RenderOpts :=
  ⟨400, 400, 1, .uniform whiteColor⟩

/-- The functional render options.  `WithSourceImage` carries the image the
external decoder produced (a successfully decoded image is never Go's
`*image.Uniform`, hence always a raster here; a failed decode aborts `apply`
before the steps modelled below and is not claim-relevant). -/
inductive RenderOption where
  | withResolution (width height : ℤ)
  | withFrames (n : ℤ)
  | withSourceImage (img : Image)

/-- Application of one functional option to the options record. -/
def applyOpt (r : RenderOpts) : RenderOption → RenderOpts
  | .withResolution w h => { r with width := w, height := h }
  | .withFrames n => { r with frames := n }
  | .withSourceImage img => { r with src := img }

/-- The `r.src.(*image.Uniform)` type test in `renderOptions.apply`. -/
def Image.isUniform : Image → Bool
  | .uniform _ => true
  | .raster _ _ _ => false

/-- `src.Bounds().Dx()` — queried only on non-uniform sources. -/
def Image.dx : Image → ℕ
  | .uniform _ => 0
  | .raster dx _ _ => dx

/-- `src.Bounds().Dy()` — queried only on non-uniform sources. -/
def Image.dy : Image → ℕ
  | .uniform _ => 0
  | .raster _ dy _ => dy

/-- The validation failures of `renderOptions.apply`. -/
inductive RenderOptErr where
  | badFrames | badWidth | badHeight
  deriving DecidableEq, Repr

/-- `renderOptions.apply`: fold the options over the record; when the
resulting source is not `*image.Uniform`, overwrite width and height with
the source bounds; then require positive frames, width and height. -/
def applyRenderOptions (r0 : RenderOpts) (opts : List RenderOption) :
    Except RenderOptErr RenderOpts :=
  let r1 := opts.foldl applyOpt r0
  let r2 := if r1.src.isUniform then r1
            else { r1 with width := (r1.src.dx : ℤ), height := (r1.src.dy : ℤ) }
  if r2.frames ≤ 0 then .error .badFrames
  else if r2.width ≤ 0 then .error .badWidth
  else if r2.height ≤ 0 then .error .badHeight
  else .ok r2

/-- Whether a template contains a rule reference anywhere — the defining
property of a grammar with no base case, where every alternative re-enters
some rule. -/
def Alt.hasRuleRef : Alt → Bool
  | .rule _ _ => true
  | .triplet _ a b c => a.hasRuleRef || b.hasRuleRef || c.hasRuleRef
  | .func _ _ l r => l.hasRuleRef || r.hasRuleRef
  | .ite _ c t e => c.hasRuleRef || t.hasRuleRef || e.hasRuleRef
  | _ => false

/-- Whether every rule reference of a template names a rule of the table. -/
def Alt.refsClosed (ctx : GenCtx) : Alt → Bool
  | .rule _ name => (ctx.lookupRule name).isSome
  | .triplet _ a b c => a.refsClosed ctx && b.refsClosed ctx && c.refsClosed ctx
  | .func _ _ l r => l.refsClosed ctx && r.refsClosed ctx
  | .ite _ c t e => c.refsClosed ctx && t.refsClosed ctx && e.refsClosed ctx
  | _ => true

/-- A placeholder position for concretely constructed grammars and nodes. -/
def pz : SrcPos := ⟨"", 0⟩

/-- A concrete all-zero coordinate state. -/
def sZero : State := ⟨.num 0, .num 0, .num 0, .num 0, .num 0, .num 0⟩

/-- The resolved form of the base-case-free production `T ::= T %1.0 .`. -/
def recProdT : ResolvedProd := ⟨"T", [⟨.rule pz "T", 1⟩], [1], 1⟩

/-- A rule table holding only `T ::= T %1.0 .`, with a try budget of 1. -/
def recCtxT : GenCtx := ⟨[("T", recProdT)], 1⟩

/-- The resolved form of `S ::= T %0.5 | 1 %0.5 .` (alternative order as
loaded; the resolution sort leaves it unchanged). -/
def prodS : ResolvedProd := ⟨"S", [⟨.rule pz "T", 1/2⟩, ⟨.num pz 1, 1/2⟩], [1/2, 1], 1⟩

/-- A rule table holding `S ::= T %0.5 | 1 %0.5 .` and `T ::= T %1.0 .`,
with a try budget of 2. -/
def ctxST : GenCtx := ⟨[("S", prodS), ("T", recProdT)], 2⟩

/-- A concrete random stream: draw 3 picks the second alternative of `S`,
all other draws pick the first alternative of whatever production asks. -/
def stream5 : ℕ → ℚ := fun n => if n = 3 then 9/10 else 3/10

/-- The grammar `S ::= {?, ?, ?} %1.0 .` as parsed. -/
def randTripleGrammar : List ProductionT :=
  [⟨pz, "S", [⟨.triplet pz (.random pz) (.random pz) (.random pz), 1⟩]⟩]

/-- The constant triple node that generating `randTripleGrammar` bakes. -/
def constTriple (v1 v2 v3 : ℚ) : Node :=
  .triple pz (.numv pz (.num v1)) (.numv pz (.num v2)) (.numv pz (.num v3))

/-- The color every pixel of a render of `constTriple v1 v2 v3` receives. -/
def constColor (v1 v2 v3 : ℚ) : Color :=
  ⟨chan (.num v1), chan (.num v2), chan (.num v3), 255⟩

/-- A rule table with no base case: every production has at least one
alternative, and every alternative re-enters some rule of the table.  This
is the resolved form of a grammar whose productions are all (mutually)
self-recursive with every reference defined. -/
def noBaseCase (ctx : GenCtx) : Prop :=
  ∀ kv ∈ ctx.rules, kv.2.alts ≠ [] ∧
    ∀ a ∈ kv.2.alts, a.alt.hasRuleRef = true ∧ a.alt.refsClosed ctx = true

/-! ### Claim theorems and supporting lemmas -/

/-- **C6.**  `ifThenElse.Eval` short-circuits: whenever the condition
evaluates to the boolean `b`, the whole conditional evaluates exactly as the
branch selected by `b` does on its own.  In particular, for a condition that
evaluates to true the result is the `then` branch's evaluation, the `else`
branch is never evaluated, and no error of the `else` branch can surface;
symmetrically for false and the `then` branch. -/
theorem ifThenElse_short_circuit (p q : SrcPos) (c t e : Node) (s : State) (b : Bool)
    (h : evalNode c s = .ok (.boolv q b)) :
    evalNode (.ite p c t e) s = evalNode (if b then t else e) s := by
  cases b <;> simp only [evalNode, h] <;> rfl

/-- Witness for `ifThenElse_short_circuit`: a true condition together with an
`else` branch that fails when evaluated on its own; the conditional still
evaluates to the `then` branch without error. -/
theorem ifThenElse_short_circuit_witness :
    evalNode (.ite pz (.boolv pz true) (.numv pz (.num 1))
        (.opn pz .add (.boolv pz true) (.boolv pz false))) sZero
      = evalNode (.numv pz (.num 1)) sZero ∧
    evalNode (.opn pz .add (.boolv pz true) (.boolv pz false)) sZero
      = .error ⟨.boolv pz true, .number⟩ :=
  ⟨ifThenElse_short_circuit pz pz _ _ _ sZero true rfl, rfl⟩

/-- **C2.**  The `N = 1` single-element axis does divide by zero: with
`width = height = frames = 1`, `S` computes `float64(0)/float64(0)` on each
position axis, so `x`, `y` and `frame` all come out as `NaN` — an undefined
value, not the constant `0` or `-1` a degenerate axis is supposed to map
to. -/
theorem single_element_axis_is_nan :
    (mkState 0 0 1 1 0 1 whiteColor).X = FP.nan ∧
    (mkState 0 0 1 1 0 1 whiteColor).Y = FP.nan ∧
    (mkState 0 0 1 1 0 1 whiteColor).F = FP.nan ∧
    FP.nan ≠ FP.num 0 ∧ FP.nan ≠ FP.num (-1) := by
  refine ⟨by decide, by decide, by decide, by decide, by decide⟩

/-- **C3.**  Resolution does not sort alternatives ascending by probability:
the comparator `int(a.Probability - b.Probability)` truncates every
difference smaller than one to `0`, so the sort leaves the probabilities
`[0.5, 0.2]` in their original order, and the production is still accepted
with the cumulative table `[0.5, 0.7]`. -/
theorem alternatives_not_sorted_after_resolution :
    resolveLoop [] [⟨pz, "S", [⟨.num pz 1, 1/2⟩, ⟨.num pz 2, 1/5⟩]⟩]
      = .ok [("S", ⟨"S", [⟨.num pz 1, 1/2⟩, ⟨.num pz 2, 1/5⟩], [1/2, 7/10], 7/10⟩)] ∧
    ¬ List.Pairwise (· ≤ ·)
        (([⟨Alt.num pz 1, 1/2⟩, ⟨Alt.num pz 2, 1/5⟩] : List AltProb).map AltProb.prob) := by
  have h1 : altCmp ⟨.num pz 2, 1/5⟩ ⟨.num pz 1, 1/2⟩ = 0 := by
    rw [altCmp, FP.qtrunc, if_neg (by norm_num)]
    norm_num [Int.ceil_eq_zero_iff, Set.mem_Ioc]
  constructor
  · simp only [resolveLoop, sortAlts, insertCmp, mkTotals, List.foldl, List.find?,
      Option.isSome, h1]
    norm_num [mkTotals]
  · simp only [List.map, List.pairwise_cons]
    norm_num

/-- **C10.**  A supplied decoded source image (decoders never produce
`*image.Uniform`, so it is a raster) makes `renderOptions.apply` overwrite
the requested resolution with the source bounds; with no source option the
default uniform white source is kept and the requested resolution is
used. -/
theorem source_image_overrides_resolution (w h fr : ℤ) (dx dy : ℕ)
    (pix : ℕ → ℕ → SrcColor) (hfr : 0 < fr) (hw : 0 < w) (hh : 0 < h)
    (hdx : 0 < dx) (hdy : 0 < dy) :
    applyRenderOptions defaultRenderOptions
        [.withResolution w h, .withFrames fr, .withSourceImage (.raster dx dy pix)]
      = .ok ⟨(dx : ℤ), (dy : ℤ), fr, .raster dx dy pix⟩ ∧
    applyRenderOptions defaultRenderOptions [.withResolution w h, .withFrames fr]
      = .ok ⟨w, h, fr, .uniform whiteColor⟩ := by
  constructor <;>
  · simp only [applyRenderOptions, applyOpt, defaultRenderOptions, List.foldl,
      Image.isUniform, Image.dx, Image.dy]
    split_ifs <;> simp_all <;> omega

/-- Witness for `source_image_overrides_resolution` at a 7×5 source and a
640×480 requested resolution. -/
theorem source_image_overrides_resolution_witness :
    applyRenderOptions defaultRenderOptions
        [.withResolution 640 480, .withFrames 2,
         .withSourceImage (.raster 7 5 fun _ _ => whiteColor)]
      = .ok ⟨7, 5, 2, .raster 7 5 fun _ _ => whiteColor⟩ ∧
    applyRenderOptions defaultRenderOptions [.withResolution 640 480, .withFrames 2]
      = .ok ⟨640, 480, 2, .uniform whiteColor⟩ :=
  source_image_overrides_resolution 640 480 2 7 5 (fun _ _ => whiteColor)
    (by decide) (by decide) (by decide) (by decide) (by decide)

/-- A `Pairwise (· ≤ ·)` list is monotone under `getD`. -/
theorem pairwise_le_getD_mono (T : List ℚ) (hp : List.Pairwise (· ≤ ·) T) :
    ∀ i j, i ≤ j → j < T.length → T.getD i 0 ≤ T.getD j 0 := by
  intro i j hij hj
  rcases Nat.eq_or_lt_of_le hij with rfl | hlt
  · exact le_refl _
  · have hi : i < T.length := Nat.lt_trans hlt hj
    rw [List.getD_eq_getElem T 0 hi, List.getD_eq_getElem T 0 hj]
    exact List.pairwise_iff_getElem.mp hp i j hi hj hlt

/-- The binary search stays within its bounds. -/
theorem searchLoop_bounds (T : List ℚ) (x : ℚ) :
    ∀ fuel lo hi, hi - lo ≤ fuel → lo ≤ hi →
      lo ≤ searchLoop T x lo hi ∧ searchLoop T x lo hi ≤ hi := by
  intro fuel
  induction fuel with
  | zero =>
    intro lo hi hf hlh
    rw [searchLoop, if_neg (by omega)]
    omega
  | succ n ih =>
    intro lo hi hf hlh
    rw [searchLoop]
    by_cases hlt : lo < hi
    · rw [if_pos hlt]
      by_cases hcmp : T.getD ((lo + hi) / 2) 0 < x
      · rw [if_pos hcmp]
        have := ih ((lo + hi) / 2 + 1) hi (by omega) (by omega)
        omega
      · rw [if_neg hcmp]
        have := ih lo ((lo + hi) / 2) (by omega) (by omega)
        omega
    · rw [if_neg hlt]
      omega

/-- Correctness of the binary search on a nondecreasing table: every index
below the result holds an entry `< x`; every index at or above it (within
the list) holds an entry `≥ x`. -/
theorem searchLoop_correct (T : List ℚ) (x : ℚ)
    (hmono : ∀ i j, i ≤ j → j < T.length → T.getD i 0 ≤ T.getD j 0) :
    ∀ fuel lo hi, hi - lo ≤ fuel → lo ≤ hi → hi ≤ T.length →
      (∀ k, k < lo → T.getD k 0 < x) →
      (∀ k, hi ≤ k → k < T.length → x ≤ T.getD k 0) →
      (∀ k, k < searchLoop T x lo hi → T.getD k 0 < x) ∧
      (∀ k, searchLoop T x lo hi ≤ k → k < T.length → x ≤ T.getD k 0) := by
  intro fuel
  induction fuel with
  | zero =>
    intro lo hi hf hlh _ hlow hhigh
    rw [searchLoop, if_neg (by omega)]
    exact ⟨hlow, fun k hk hk2 => hhigh k (by omega) hk2⟩
  | succ n ih =>
    intro lo hi hf hlh hhiT hlow hhigh
    rw [searchLoop]
    by_cases hlt : lo < hi
    · rw [if_pos hlt]
      by_cases hcmp : T.getD ((lo + hi) / 2) 0 < x
      · rw [if_pos hcmp]
        refine ih ((lo + hi) / 2 + 1) hi (by omega) (by omega) hhiT ?_ hhigh
        intro k hk
        exact lt_of_le_of_lt (hmono k ((lo + hi) / 2) (by omega) (by omega)) hcmp
      · rw [if_neg hcmp]
        refine ih lo ((lo + hi) / 2) (by omega) (by omega) (by omega) hlow ?_
        intro k hk hkT
        exact le_trans (not_lt.mp hcmp) (hmono ((lo + hi) / 2) k hk hkT)
    · rw [if_neg hlt]
      exact ⟨hlow, fun k hk hk2 => hhigh k (by omega) hk2⟩

/-- **C8.**  Alternative selection within a production: the clamped binary
search always yields a valid index of the alternatives list; whenever some
cumulative entry is `≥ x`, the selected index is the first such index; and
when `x` lies beyond every entry the selection clamps to the last
alternative. -/
theorem selectIndex_first_ge (prod : ResolvedProd) (x : ℚ)
    (hlen : prod.totals.length = prod.alts.length)
    (hne : 0 < prod.alts.length)
    (hsorted : List.Pairwise (· ≤ ·) prod.totals) :
    selectIndex prod x < prod.alts.length ∧
    (∀ i, i < prod.totals.length → x ≤ prod.totals.getD i 0 →
      selectIndex prod x ≤ i ∧ x ≤ prod.totals.getD (selectIndex prod x) 0 ∧
      ∀ k, k < selectIndex prod x → prod.totals.getD k 0 < x) ∧
    ((∀ i, i < prod.totals.length → prod.totals.getD i 0 < x) →
      selectIndex prod x = prod.alts.length - 1) := by
  have hmono := pairwise_le_getD_mono prod.totals hsorted
  set L := prod.totals.length with hL
  obtain ⟨hc1, hc2⟩ := searchLoop_correct prod.totals x hmono L 0 L (by omega)
    (by omega) (by omega) (by omega) (by omega)
  obtain ⟨-, hub⟩ := searchLoop_bounds prod.totals x L 0 L (by omega) (by omega)
  refine ⟨by simp only [selectIndex]; omega, ?_, ?_⟩
  · intro i hi hxi
    have hri : searchLoop prod.totals x 0 L ≤ i := by
      by_contra hcon
      exact absurd hxi (not_le.mpr (hc1 i (by omega)))
    have hsel : selectIndex prod x = searchLoop prod.totals x 0 L := by
      simp only [selectIndex, ← hL]
      omega
    rw [hsel]
    exact ⟨hri, hc2 _ (le_refl _) (by omega), hc1⟩
  · intro hall
    have hge : L ≤ searchLoop prod.totals x 0 L := by
      by_contra hcon
      exact absurd (hc2 _ (le_refl _) (by omega)) (not_le.mpr (hall _ (by omega)))
    simp only [selectIndex, ← hL]
    omega

/-- Witness for `selectIndex_first_ge`: the cumulative table `[1/2, 1]` with
a draw of `3/4` selects index 1, the first entry `≥ 3/4`. -/
theorem selectIndex_first_ge_witness :
    selectIndex ⟨"W", [⟨.num pz 0, 1/2⟩, ⟨.num pz 0, 1/2⟩], [1/2, 1], 1⟩ (3/4)
        < 2 ∧
    (∀ i, i < 2 → (3 : ℚ)/4 ≤ ([(1 : ℚ)/2, 1].getD i 0) →
      selectIndex ⟨"W", [⟨.num pz 0, 1/2⟩, ⟨.num pz 0, 1/2⟩], [1/2, 1], 1⟩ (3/4) ≤ i ∧
      (3 : ℚ)/4 ≤ ([(1 : ℚ)/2, 1].getD
        (selectIndex ⟨"W", [⟨.num pz 0, 1/2⟩, ⟨.num pz 0, 1/2⟩], [1/2, 1], 1⟩ (3/4)) 0) ∧
      ∀ k, k < selectIndex ⟨"W", [⟨.num pz 0, 1/2⟩, ⟨.num pz 0, 1/2⟩], [1/2, 1], 1⟩ (3/4) →
        ([(1 : ℚ)/2, 1].getD k 0) < 3/4) := by
  have h := selectIndex_first_ge ⟨"W", [⟨.num pz 0, 1/2⟩, ⟨.num pz 0, 1/2⟩], [1/2, 1], 1⟩
    (3/4) (by simp) (by simp) (by norm_num [List.pairwise_cons])
  exact ⟨h.1, fun i hi hxi => h.2.1 i hi hxi⟩

/-- A template with no rule reference always generates successfully (leaves
and compositions of leaves cannot fail). -/
theorem genAlt_ok_of_no_ref (ctx : GenCtx) (t : Alt) (ht : t.hasRuleRef = false) :
    ∀ st d, ∃ st2 n, genAlt ctx t st d = (st2, .ok n) := by
  induction t with
  | num p v => intro st d; exact ⟨st, .numv p (.num v), by simp [genAlt]⟩
  | bool p v => intro st d; exact ⟨st, .boolv p v, by simp [genAlt]⟩
  | comp p c => intro st d; exact ⟨st, .comp p c, by simp [genAlt]⟩
  | random p =>
    intro st d
    exact ⟨⟨st.stream, st.idx + 1⟩, .numv p (.num (st.stream st.idx * 2 - 1)),
      by simp [genAlt, Rng.next]⟩
  | rule p name => simp [Alt.hasRuleRef] at ht
  | triplet p a b c iha ihb ihc =>
    simp only [Alt.hasRuleRef, Bool.or_eq_false_iff] at ht
    intro st d
    obtain ⟨st1, n1, h1⟩ := iha ht.1.1 st d
    obtain ⟨st2, n2, h2⟩ := ihb ht.1.2 st1 d
    obtain ⟨st3, n3, h3⟩ := ihc ht.2 st2 d
    exact ⟨st3, .triple p n1 n2 n3, by simp [genAlt, h1, h2, h3]⟩
  | func p o l r ihl ihr =>
    simp only [Alt.hasRuleRef, Bool.or_eq_false_iff] at ht
    intro st d
    obtain ⟨st1, n1, h1⟩ := ihl ht.1 st d
    obtain ⟨st2, n2, h2⟩ := ihr ht.2 st1 d
    exact ⟨st2, .opn p o n1 n2, by simp [genAlt, h1, h2]⟩
  | ite p c t e ihc iht ihe =>
    simp only [Alt.hasRuleRef, Bool.or_eq_false_iff] at ht
    intro st d
    obtain ⟨st1, n1, h1⟩ := ihc ht.1.1 st d
    obtain ⟨st2, n2, h2⟩ := iht ht.1.2 st1 d
    obtain ⟨st3, n3, h3⟩ := ihe ht.2 st2 d
    exact ⟨st3, .ite p n1 n2 n3, by simp [genAlt, h1, h2, h3]⟩

/-- The selected alternative is always one of the production's alternatives
(for a nonempty alternatives list). -/
theorem selected_alt_mem (prod : ResolvedProd) (x : ℚ) (hne : prod.alts ≠ []) :
    prod.alts.getD (selectIndex prod x) dummyAlt ∈ prod.alts := by
  have hlen : 0 < prod.alts.length := List.length_pos.mpr hne
  have hidx : selectIndex prod x < prod.alts.length := by
    simp only [selectIndex]
    omega
  rw [List.getD_eq_getElem _ _ hidx]
  exact List.getElem_mem hidx

/-- If every alternative of a production fails to generate at depth `d`
(with a depth- or tries-class error), the try loop exhausts its budget and
fails with the max-tries error. -/
theorem genProdTries_error_of_alts_bad (ctx : GenCtx) (d : ℕ)
    (hA : ∀ t : Alt, t.hasRuleRef = true → t.refsClosed ctx = true → ∀ st : Rng,
      (genAlt ctx t st d).2 = .error .maxDepth ∨ (genAlt ctx t st d).2 = .error .maxTries)
    (prod : ResolvedProd) (hne : prod.alts ≠ [])
    (hall : ∀ a ∈ prod.alts, a.alt.hasRuleRef = true ∧ a.alt.refsClosed ctx = true) :
    ∀ (st : Rng) (tries : ℕ), (genProdTries ctx prod st d tries).2 = .error .maxTries := by
  intro st tries
  induction tries generalizing st with
  | zero => simp [genProdTries]
  | succ k ih =>
    have hmem := selected_alt_mem prod ((st.next).1 * prod.max) hne
    obtain ⟨h1, h2⟩ := hall _ hmem
    rcases hg : genAlt ctx
        (prod.alts.getD (selectIndex prod ((st.next).1 * prod.max)) dummyAlt).alt
        (st.next).2 d with ⟨st3, r3⟩
    have hbad := hA _ h1 h2 (st.next).2
    rw [hg] at hbad
    rcases hbad with hb | hb <;> simp only at hb <;> subst hb <;>
      simp only [Rng.next] at hg <;>
      simp only [genProdTries, Rng.next, hg] <;>
      exact ih st3

/-- In a no-base-case rule table, generating any template that re-enters a
rule fails, with a max-depth or max-tries error, at every depth. -/
theorem genAlt_error_of_no_base (ctx : GenCtx) (henv : noBaseCase ctx) :
    ∀ d (t : Alt), t.hasRuleRef = true → t.refsClosed ctx = true → ∀ st : Rng,
      (genAlt ctx t st d).2 = .error .maxDepth ∨
      (genAlt ctx t st d).2 = .error .maxTries := by
  intro d
  induction d using Nat.strong_induction_on with
  | _ d ihd =>
    intro t
    induction t with
    | num p v => intro h1; simp [Alt.hasRuleRef] at h1
    | bool p v => intro h1; simp [Alt.hasRuleRef] at h1
    | comp p c => intro h1; simp [Alt.hasRuleRef] at h1
    | random p => intro h1; simp [Alt.hasRuleRef] at h1
    | rule p name =>
      intro _ h2 st
      simp only [Alt.refsClosed] at h2
      obtain ⟨prod, hprod⟩ := Option.isSome_iff_exists.mp h2
      obtain ⟨kv, hfind, hkv⟩ : ∃ kv, ctx.rules.find? (fun kv => kv.1 == name) = some kv
          ∧ kv.2 = prod := by
        simpa [GenCtx.lookupRule, Option.map_eq_some'] using hprod
      have hmem := List.mem_of_find?_eq_some hfind
      obtain ⟨hne, hall⟩ := henv kv hmem
      rw [hkv] at hne hall
      cases d with
      | zero => left; simp [genAlt, hprod, genProd]
      | succ e =>
        right
        have hT := genProdTries_error_of_alts_bad ctx e
          (fun u hu1 hu2 st2 => ihd e (Nat.lt_succ_self e) u hu1 hu2 st2)
          prod hne hall st ctx.maxTries
        simp [genAlt, hprod, genProd, hT]
    | triplet p a b c iha ihb ihc =>
      intro h1 h2 st
      simp only [Alt.hasRuleRef, Bool.or_eq_true] at h1
      simp only [Alt.refsClosed, Bool.and_eq_true] at h2
      by_cases ha : a.hasRuleRef = true
      · rcases hg : genAlt ctx a st d with ⟨st1, r1⟩
        have hbad := iha ha h2.1.1 st
        rw [hg] at hbad
        rcases hbad with hb | hb <;> simp only at hb <;> subst hb <;>
          [left; right] <;> simp [genAlt, hg]
      · obtain ⟨st1, n1, hg1⟩ := genAlt_ok_of_no_ref ctx a (by simpa using ha) st d
        by_cases hb : b.hasRuleRef = true
        · rcases hg2 : genAlt ctx b st1 d with ⟨st2, r2⟩
          have hbad := ihb hb h2.1.2 st1
          rw [hg2] at hbad
          rcases hbad with h | h <;> simp only at h <;> subst h <;>
            [left; right] <;> simp [genAlt, hg1, hg2]
        · obtain ⟨st2, n2, hg2⟩ := genAlt_ok_of_no_ref ctx b (by simpa using hb) st1 d
          have hc : c.hasRuleRef = true := by
            rcases h1 with (h | h) | h
            · exact absurd h ha
            · exact absurd h hb
            · exact h
          rcases hg3 : genAlt ctx c st2 d with ⟨st3, r3⟩
          have hbad := ihc hc h2.2 st2
          rw [hg3] at hbad
          rcases hbad with h | h <;> simp only at h <;> subst h <;>
            [left; right] <;> simp [genAlt, hg1, hg2, hg3]
    | func p o l r ihl ihr =>
      intro h1 h2 st
      simp only [Alt.hasRuleRef, Bool.or_eq_true] at h1
      simp only [Alt.refsClosed, Bool.and_eq_true] at h2
      by_cases hl : l.hasRuleRef = true
      · rcases hg : genAlt ctx l st d with ⟨st1, r1⟩
        have hbad := ihl hl h2.1 st
        rw [hg] at hbad
        rcases hbad with h | h <;> simp only at h <;> subst h <;>
          [left; right] <;> simp [genAlt, hg]
      · obtain ⟨st1, n1, hg1⟩ := genAlt_ok_of_no_ref ctx l (by simpa using hl) st d
        have hr : r.hasRuleRef = true := by
          rcases h1 with h | h
          · exact absurd h hl
          · exact h
        rcases hg2 : genAlt ctx r st1 d with ⟨st2, r2⟩
        have hbad := ihr hr h2.2 st1
        rw [hg2] at hbad
        rcases hbad with h | h <;> simp only at h <;> subst h <;>
          [left; right] <;> simp [genAlt, hg1, hg2]
    | ite p c t e ihc iht ihe =>
      intro h1 h2 st
      simp only [Alt.hasRuleRef, Bool.or_eq_true] at h1
      simp only [Alt.refsClosed, Bool.and_eq_true] at h2
      by_cases hc : c.hasRuleRef = true
      · rcases hg : genAlt ctx c st d with ⟨st1, r1⟩
        have hbad := ihc hc h2.1.1 st
        rw [hg] at hbad
        rcases hbad with h | h <;> simp only at h <;> subst h <;>
          [left; right] <;> simp [genAlt, hg]
      · obtain ⟨st1, n1, hg1⟩ := genAlt_ok_of_no_ref ctx c (by simpa using hc) st d
        by_cases ht : t.hasRuleRef = true
        · rcases hg2 : genAlt ctx t st1 d with ⟨st2, r2⟩
          have hbad := iht ht h2.1.2 st1
          rw [hg2] at hbad
          rcases hbad with h | h <;> simp only at h <;> subst h <;>
            [left; right] <;> simp [genAlt, hg1, hg2]
        · obtain ⟨st2, n2, hg2⟩ := genAlt_ok_of_no_ref ctx t (by simpa using ht) st1 d
          have he : e.hasRuleRef = true := by
            rcases h1 with (h | h) | h
            · exact absurd h hc
            · exact absurd h ht
            · exact h
          rcases hg3 : genAlt ctx e st2 d with ⟨st3, r3⟩
          have hbad := ihe he h2.2 st2
          rw [hg3] at hbad
          rcases hbad with h | h <;> simp only at h <;> subst h <;>
            [left; right] <;> simp [genAlt, hg1, hg2, hg3]

/-- **C4 (amended).**  For every rule table of a grammar whose productions
are all self-recursive with no base case (every alternative re-enters a
defined rule), every max depth, every try budget and every random stream,
generation terminates — the generator is a total function in this model,
its recursion bounded by the lexicographic measure (depth, phase, size) —
and returns a generation error: the max-depth error exactly when the
remaining depth is already exhausted on entry (a non-positive configured
max depth), and otherwise the max-tries error, because every alternative's
depth failure is retried by its enclosing rule and the cascade surfaces as
the start production's own try-budget exhaustion. -/
theorem no_base_case_generation_error (ctx : GenCtx) (henv : noBaseCase ctx)
    (prod : ResolvedProd) (hne : prod.alts ≠ [])
    (hall : ∀ a ∈ prod.alts, a.alt.hasRuleRef = true ∧ a.alt.refsClosed ctx = true)
    (st : Rng) (depth : ℕ) :
    (genProd ctx prod st depth).2
      = .error (if depth = 0 then GErr.maxDepth else GErr.maxTries) := by
  cases depth with
  | zero => simp [genProd]
  | succ e =>
    have h := genProdTries_error_of_alts_bad ctx e
      (fun u h1 h2 st2 => genAlt_error_of_no_base ctx henv e u h1 h2 st2)
      prod hne hall st ctx.maxTries
    simp [genProd, h]

set_option maxRecDepth 4000 in
/-- Counterexample to C4 as stated: the base-case-free grammar
`T ::= T %1.0 .` with max depth 2 and try budget 1 terminates with the
max-tries error — not a max-depth-class error. -/
theorem no_base_case_returns_max_tries :
    (genProd recCtxT recProdT ⟨fun _ => 3/10, 0⟩ 2).2 = .error .maxTries ∧
    GErr.maxTries ≠ GErr.maxDepth := by
  refine ⟨?_, by decide⟩
  have hq : ¬((1 : ℚ) < 3/10) := by norm_num
  simp [genProd, genProdTries, genAlt, selectIndex, searchLoop, recCtxT,
    recProdT, GenCtx.lookupRule, Rng.next, dummyAlt, List.find?, hq,
    inf_eq_min, Nat.min_def]

/-- Witness for `no_base_case_generation_error` on the same grammar at
depth 3 and try budget 1. -/
theorem no_base_case_generation_error_witness :
    (genProd recCtxT recProdT ⟨fun _ => 3/10, 0⟩ 3).2
      = .error (if (3 : ℕ) = 0 then GErr.maxDepth else GErr.maxTries) := by
  refine no_base_case_generation_error recCtxT ?_ recProdT (by simp [recProdT]) ?_ _ 3
  · intro kv hkv
    simp only [recCtxT, List.mem_singleton] at hkv
    subst hkv
    refine ⟨by simp [recProdT], ?_⟩
    intro a ha
    simp only [recProdT, List.mem_singleton] at ha
    subst ha
    exact ⟨rfl, by simp [Alt.refsClosed, GenCtx.lookupRule, recCtxT, List.find?]⟩
  · intro a ha
    simp only [recProdT, List.mem_singleton] at ha
    subst ha
    exact ⟨rfl, by simp [Alt.refsClosed, GenCtx.lookupRule, recCtxT, List.find?]⟩

/-- **C5 (amended).**  The only errors that escape a production's try loop
are the undefined-rule error and the loop's own max-tries exhaustion: any
other failure of a chosen alternative — an inner rule's max-depth or
max-tries failure included — is retried rather than propagated.  A
max-tries error reaching `Generate`'s caller is therefore the outermost
production's own budget exhaustion, and only undefined-rule errors are
immediately fatal. -/
theorem try_loop_error_classification (ctx : GenCtx) (prod : ResolvedProd)
    (st : Rng) (d tries : ℕ) (e : GErr)
    (h : (genProdTries ctx prod st d tries).2 = .error e) :
    e = .maxTries ∨ ∃ name, e = .ruleNotExist name := by
  induction tries generalizing st with
  | zero =>
    left
    have h0 : (genProdTries ctx prod st d 0).2 = .error .maxTries := by
      simp [genProdTries]
    have h1 := h0.symm.trans h
    simp only [Except.error.injEq] at h1
    exact h1.symm
  | succ k ih =>
    rcases hg : genAlt ctx
        (prod.alts.getD (selectIndex prod ((st.next).1 * prod.max)) dummyAlt).alt
        (st.next).2 d with ⟨st3, r⟩
    simp only [Rng.next] at hg
    simp only [genProdTries, Rng.next, hg] at h
    rcases r with e2 | n
    · cases e2 with
      | maxDepth => exact ih st3 h
      | maxTries => exact ih st3 h
      | ruleNotExist name =>
        simp only [Except.error.injEq] at h
        exact Or.inr ⟨name, h.symm⟩
    · simp at h

set_option maxRecDepth 4000 in
/-- Counterexample to C5 as stated: under `S ::= T %0.5 | 1 %0.5 .` and
`T ::= T %1.0 .` with max depth 2 and try budget 2, the stream `stream5`
makes the first try of `S` select `T`, which exhausts its own try budget
and fails with the max-tries error — yet `S` retries, draws its constant
alternative, and generation succeeds instead of aborting. -/
theorem inner_max_tries_retried_not_fatal :
    (genProd ctxST recProdT ⟨stream5, 1⟩ 1).2 = .error .maxTries ∧
    (genProd ctxST prodS ⟨stream5, 0⟩ 2).2 = .ok (.numv pz (.num 1)) := by
  have hq1 : ¬((1 : ℚ) < 3/10) := by norm_num
  have hq2 : ¬((2⁻¹ : ℚ) < 3/10) := by norm_num
  have hq3 : ¬((1 : ℚ) < 9/10) := by norm_num
  have hq4 : (2⁻¹ : ℚ) < 9/10 := by norm_num
  constructor <;>
    simp [genProd, genProdTries, genAlt, selectIndex, searchLoop, ctxST,
      prodS, recProdT, GenCtx.lookupRule, Rng.next, dummyAlt, stream5, List.find?,
      hq1, hq2, hq3, hq4, inf_eq_min, Nat.min_def]

set_option maxRecDepth 4000 in
/-- Witness for `try_loop_error_classification`: the try loop of `T` at an
exhausted budget yields its own max-tries error, which the classification
covers. -/
theorem try_loop_error_classification_witness :
    GErr.maxTries = GErr.maxTries ∨ ∃ name, GErr.maxTries = GErr.ruleNotExist name :=
  try_loop_error_classification recCtxT recProdT ⟨fun _ => 3/10, 0⟩ 0 1 .maxTries
    (by
      have hq : ¬((1 : ℚ) < 3/10) := by norm_num
      simp [genProd, genProdTries, genAlt, selectIndex, searchLoop, recCtxT,
        recProdT, GenCtx.lookupRule, Rng.next, dummyAlt, List.find?, hq,
        inf_eq_min, Nat.min_def])

/-- `Except.ok` is left-neutral for bind (the `Except` monad's reduction). -/
theorem exceptOkBind {ε α β : Type} (a : α) (f : α → Except ε β) :
    (Except.ok (ε := ε) a >>= f) = f a := rfl

/-- A render of the baked constant triple colors every pixel identically,
whatever its coordinate state. -/
theorem renderPoint_constTriple (v1 v2 v3 : ℚ) (s : State) :
    renderPoint (constTriple v1 v2 v3) s = .ok (constColor v1 v2 v3) := rfl

/-- **C7.**  A `Random` template is sampled exactly once, at generation
time: generating `S ::= {?, ?, ?} %1.0 .` draws one selection value and
then one stream value per `?`, baking the constants `u*2 - 1`, each in
`[-1, 1)`, into the tree; generation succeeds for every positive depth and
try budget; rendering the result at 2×2 with one frame gives every pixel of
the image the identical color; and because the run is a pure function of
the seeded stream, re-running with the same seed reproduces the
pixel-identical image. -/
theorem random_sampled_once_uniform_pixels (stream : ℕ → ℚ) (d t : ℕ)
    (h : ∀ n, 0 ≤ stream n ∧ stream n < 1) :
    grammarGen randTripleGrammar ⟨d + 1, t + 1⟩ stream
      = .ok (constTriple (stream 1 * 2 - 1) (stream 2 * 2 - 1) (stream 3 * 2 - 1)) ∧
    (∀ i ∈ [1, 2, 3], -1 ≤ stream i * 2 - 1 ∧ stream i * 2 - 1 < 1) ∧
    renderFrame (constTriple (stream 1 * 2 - 1) (stream 2 * 2 - 1) (stream 3 * 2 - 1))
        2 2 0 1 (.uniform whiteColor)
      = .ok (List.replicate 2 (List.replicate 2
          (constColor (stream 1 * 2 - 1) (stream 2 * 2 - 1) (stream 3 * 2 - 1)))) := by
  refine ⟨?_, ?_, ?_⟩
  · have hres : resolveLoop []
        [⟨pz, "S", [⟨.triplet pz (.random pz) (.random pz) (.random pz), 1⟩]⟩] = .ok [("S",
        ⟨"S", [⟨.triplet pz (.random pz) (.random pz) (.random pz), 1⟩], [1], 1⟩)] := by
      norm_num [resolveLoop, sortAlts, insertCmp, mkTotals, List.find?]
    simp [grammarGen, hres, randTripleGrammar, GenCtx.lookupRule, List.find?, genProd,
      genProdTries, genAlt, Rng.next, selectIndex, constTriple, dummyAlt,
      inf_eq_min, Nat.min_zero]
  · intro i hi
    constructor
    · nlinarith [(h i).1]
    · nlinarith [(h i).2]
  · have hpt := renderPoint_constTriple (stream 1 * 2 - 1) (stream 2 * 2 - 1)
      (stream 3 * 2 - 1)
    simp only [renderFrame, List.range_succ, List.range_zero, List.nil_append,
      List.cons_append, hpt, List.replicate]
    rfl

/-- Witness for `random_sampled_once_uniform_pixels`: the constant stream
`1/2` with the default budgets (max depth 10, 100 tries). -/
theorem random_sampled_once_uniform_pixels_witness :
    grammarGen randTripleGrammar ⟨10, 100⟩ (fun _ => 1/2)
      = .ok (constTriple ((1:ℚ)/2 * 2 - 1) ((1:ℚ)/2 * 2 - 1) ((1:ℚ)/2 * 2 - 1)) ∧
    (∀ i ∈ [1, 2, 3], -1 ≤ (1:ℚ)/2 * 2 - 1 ∧ (1:ℚ)/2 * 2 - 1 < 1) ∧
    renderFrame (constTriple ((1:ℚ)/2 * 2 - 1) ((1:ℚ)/2 * 2 - 1) ((1:ℚ)/2 * 2 - 1))
        2 2 0 1 (.uniform whiteColor)
      = .ok (List.replicate 2 (List.replicate 2
          (constColor ((1:ℚ)/2 * 2 - 1) ((1:ℚ)/2 * 2 - 1) ((1:ℚ)/2 * 2 - 1)))) :=
  random_sampled_once_uniform_pixels (fun _ => 1/2) 9 99 (fun _ => by norm_num)

/-- Inserting into the reassembly buffer is a permutation of consing. -/
theorem insertByFrame_perm {α ε : Type} (r : FrameRes α ε) :
    ∀ l : List (FrameRes α ε), (insertByFrame r l).Perm (r :: l) := by
  intro l
  induction l with
  | nil => simp [insertByFrame]
  | cons b bs ih =>
    rw [insertByFrame]
    by_cases hle : r.frame ≤ b.frame
    · rw [if_pos hle]
    · rw [if_neg hle]
      exact (ih.cons b).trans (List.Perm.swap r b bs)

/-- Inserting a fresh frame into a strictly sorted buffer keeps it strictly
sorted. -/
theorem insertByFrame_pairwise {α ε : Type} (r : FrameRes α ε) :
    ∀ l : List (FrameRes α ε),
      l.Pairwise (fun a b => a.frame < b.frame) →
      (∀ x ∈ l, x.frame ≠ r.frame) →
      (insertByFrame r l).Pairwise (fun a b => a.frame < b.frame) := by
  intro l
  induction l with
  | nil => intro _ _; simp [insertByFrame]
  | cons b bs ih =>
    intro hp hne
    rw [List.pairwise_cons] at hp
    rw [insertByFrame]
    by_cases hle : r.frame ≤ b.frame
    · rw [if_pos hle]
      have hrb : r.frame < b.frame :=
        lt_of_le_of_ne hle (fun he => hne b (List.mem_cons_self b bs) he.symm)
      refine List.pairwise_cons.mpr ⟨?_, List.pairwise_cons.mpr ⟨hp.1, hp.2⟩⟩
      intro x hx
      rcases List.mem_cons.mp hx with rfl | hx
      · exact hrb
      · exact lt_trans hrb (hp.1 x hx)
    · rw [if_neg hle]
      refine List.pairwise_cons.mpr ⟨?_, ?_⟩
      · intro x hx
        have hx2 := (insertByFrame_perm r bs).mem_iff.mp hx
        rcases List.mem_cons.mp hx2 with rfl | hx3
        · omega
        · exact hp.1 x hx3
      · exact ih hp.2 (fun x hx => hne x (List.mem_cons_of_mem b hx))

/-- `sortBuf` permutes the buffer and leaves it strictly sorted by frame
index, provided the frame indices are pairwise distinct. -/
theorem sortBuf_aux {α ε : Type} :
    ∀ (l acc : List (FrameRes α ε)),
      acc.Pairwise (fun a b => a.frame < b.frame) →
      (acc ++ l).Pairwise (fun a b => a.frame ≠ b.frame) →
      (l.foldl (fun acc r => insertByFrame r acc) acc).Perm (acc ++ l) ∧
      (l.foldl (fun acc r => insertByFrame r acc) acc).Pairwise
        (fun a b => a.frame < b.frame) := by
  intro l
  induction l with
  | nil =>
    intro acc hs _
    constructor
    · simpa using List.Perm.refl acc
    · simpa using hs
  | cons r rest ih =>
    intro acc hs hne
    have hsymm : ∀ {x y : FrameRes α ε}, x.frame ≠ y.frame → y.frame ≠ x.frame :=
      fun hab => hab.symm
    have h1 : (acc ++ r :: rest).Pairwise (fun a b => a.frame ≠ b.frame) := hne
    rw [List.pairwise_append] at hne
    have haccr : ∀ x ∈ acc, x.frame ≠ r.frame :=
      fun x hx => hne.2.2 x hx r (List.mem_cons_self r rest)
    have hacc2s := insertByFrame_pairwise r acc hs haccr
    have hacc2p := insertByFrame_perm r acc
    have hpm : ((insertByFrame r acc) ++ rest).Perm (acc ++ r :: rest) :=
      (hacc2p.append_right rest).trans
        ((List.perm_middle : (acc ++ r :: rest).Perm (r :: (acc ++ rest))).symm)
    have hbig : ((insertByFrame r acc) ++ rest).Pairwise
        (fun a b => a.frame ≠ b.frame) :=
      (List.Perm.pairwise_iff hsymm hpm).mpr h1
    obtain ⟨hp, hsrt⟩ := ih (insertByFrame r acc) hacc2s hbig
    exact ⟨hp.trans hpm, hsrt⟩

/-- `sortBuf` on a distinct-frame buffer: a sorted permutation. -/
theorem sortBuf_spec {α ε : Type} (l : List (FrameRes α ε))
    (hne : l.Pairwise (fun a b => a.frame ≠ b.frame)) :
    (sortBuf l).Perm l ∧
    (sortBuf l).Pairwise (fun a b => a.frame < b.frame) := by
  obtain ⟨hp, hs⟩ := sortBuf_aux l [] (List.Pairwise.nil) (by simpa using hne)
  exact ⟨by simpa using hp, hs⟩

/-- The drain loop on a strictly sorted buffer whose frames lie at or
beyond `e`: it splits off the maximal prefix carrying exactly the
consecutive frames `e, e+1, ...`, emits those images in order, and leaves a
remainder whose frames lie strictly beyond the new expected index. -/
theorem drainBuf_spec {α ε : Type} :
    ∀ (buf : List (FrameRes α ε)) (e : ℕ),
      buf.Pairwise (fun a b => a.frame < b.frame) →
      (∀ x ∈ buf, e ≤ x.frame) →
      ∃ pre suf, buf = pre ++ suf ∧
        pre.map FrameRes.frame = List.range' e pre.length ∧
        drainBuf buf e = (pre.map (fun f => Out.img f.img), e + pre.length, suf) ∧
        (∀ x ∈ suf, e + pre.length < x.frame) ∧
        suf.Pairwise (fun a b => a.frame < b.frame) := by
  intro buf
  induction buf with
  | nil =>
    intro e _ _
    exact ⟨[], [], rfl, rfl, by simp [drainBuf], by simp, List.Pairwise.nil⟩
  | cons f fs ih =>
    intro e hp hge
    rw [List.pairwise_cons] at hp
    by_cases hf : f.frame = e
    · obtain ⟨pre, suf, hsplit, hmap, hdrain, hgt, hsrt⟩ := ih (e + 1) hp.2
        (fun x hx => by have := hp.1 x hx; omega)
      refine ⟨f :: pre, suf, by rw [hsplit, List.cons_append], ?_, ?_, ?_, hsrt⟩
      · simp only [List.map_cons, hmap, List.length_cons, hf]
        rw [List.range'_succ]
      · rw [drainBuf, if_pos hf, hdrain]
        have harith : e + 1 + pre.length = e + (pre.length + 1) := by omega
        simp [harith]
      · intro x hx
        have := hgt x hx
        simp only [List.length_cons]
        omega
    · refine ⟨[], f :: fs, rfl, rfl, ?_, ?_, List.pairwise_cons.mpr hp⟩
      · rw [drainBuf, if_neg hf]
        simp
      · intro x hx
        rcases List.mem_cons.mp hx with hx1 | hx2
        · have h3 := hge x hx
          have hxf : x.frame = f.frame := by rw [hx1]
          simp only [List.length_nil]
          omega
        · have h1 := hp.1 x hx2
          have h2 := hge f (List.mem_cons_self f fs)
          simp only [List.length_nil]
          omega

/-- Draining conserves the count: new expected plus remaining buffer size
equals old expected plus old buffer size. -/
theorem drainBuf_count {α ε : Type} :
    ∀ (buf : List (FrameRes α ε)) (e : ℕ),
      (drainBuf buf e).2.1 + (drainBuf buf e).2.2.length = e + buf.length := by
  intro buf
  induction buf with
  | nil => intro e; simp [drainBuf]
  | cons f fs ih =>
    intro e
    rw [drainBuf]
    by_cases hf : f.frame = e
    · rw [if_pos hf]
      rcases hd : drainBuf fs (e + 1) with ⟨os, e2, b2⟩
      have h := ih (e + 1)
      rw [hd] at h
      dsimp only at h
      dsimp only
      simp only [List.length_cons]
      omega
    · rw [if_neg hf]

/-- The drain loop emits only images. -/
theorem drainBuf_outputs {α ε : Type} :
    ∀ (buf : List (FrameRes α ε)) (e : ℕ),
      ∀ o ∈ (drainBuf buf e).1, ∃ a, o = Out.img a := by
  intro buf
  induction buf with
  | nil => intro e o ho; simp [drainBuf] at ho
  | cons f fs ih =>
    intro e o ho
    rw [drainBuf] at ho
    by_cases hf : f.frame = e
    · rw [if_pos hf] at ho
      rcases hd : drainBuf fs (e + 1) with ⟨os, e2, b2⟩
      rw [hd] at ho
      simp only [List.mem_cons] at ho
      rcases ho with rfl | ho
      · exact ⟨f.img, rfl⟩
      · have := ih (e + 1) o
        rw [hd] at this
        exact this ho
    · rw [if_neg hf] at ho
      simp at ho

/-- Rebuilding a list of frame results from its frames: if every element is
determined by its frame via `f`, mapping `f` over the frames restores the
list. -/
theorem map_frame_map {α ε : Type} (f : ℕ → FrameRes α ε) :
    ∀ l : List (FrameRes α ε), (∀ x ∈ l, f x.frame = x) →
      (l.map FrameRes.frame).map f = l := by
  intro l
  induction l with
  | nil => intro _; rfl
  | cons x xs ih =>
    intro h
    simp only [List.map_cons]
    rw [h x (List.mem_cons_self x xs), ih (fun y hy => h y (List.mem_cons_of_mem x hy))]

/-- Invariant lemma for the reassembly loop: if the buffer (strictly sorted,
all frames beyond the expected index) together with the pending arrivals
holds exactly one error-free result per frame `expected, ..., n-1` — in any
order — then the loop emits exactly the images of frames
`expected, ..., n-1`, in ascending order. -/
theorem frameLoop_ordered_aux {α ε : Type} (n : ℕ) (images : ℕ → α) :
    ∀ (arr : List (FrameRes α ε)) (expected : ℕ) (buf : List (FrameRes α ε)),
      (buf ++ arr).Perm ((List.range' expected (n - expected)).map
        (fun i => (⟨i, images i, none⟩ : FrameRes α ε))) →
      buf.Pairwise (fun a b => a.frame < b.frame) →
      (∀ x ∈ buf, expected < x.frame) →
      frameLoop n arr expected buf
        = (List.range' expected (n - expected)).map (fun i => Out.img (images i)) := by
  intro arr
  induction arr with
  | nil =>
    intro expected buf hperm hsrt hgt
    by_cases hle : n ≤ expected
    · rw [show n - expected = 0 by omega]
      rw [frameLoop, if_pos hle]
      rfl
    · exfalso
      have hmem : (⟨expected, images expected, none⟩ : FrameRes α ε) ∈ buf := by
        have h1 : (⟨expected, images expected, none⟩ : FrameRes α ε)
            ∈ (List.range' expected (n - expected)).map
              (fun i => (⟨i, images i, none⟩ : FrameRes α ε)) := by
          refine List.mem_map.mpr ⟨expected, ?_, rfl⟩
          exact List.mem_range'_1.mpr ⟨le_refl _, by omega⟩
        have h2 := hperm.mem_iff.mpr h1
        simpa using h2
      exact absurd (hgt _ hmem) (by simp)
  | cons r rest ih =>
    intro expected buf hperm hsrt hgt
    have hrmem : r ∈ (List.range' expected (n - expected)).map
        (fun i => (⟨i, images i, none⟩ : FrameRes α ε)) :=
      hperm.mem_iff.mp (by simp)
    obtain ⟨i, hirange, hri⟩ := List.mem_map.mp hrmem
    obtain ⟨hi1, hi2⟩ := List.mem_range'_1.mp hirange
    have hexp : expected < n := by
      rcases Nat.lt_or_ge expected n with h | h
      · exact h
      · rw [show n - expected = 0 by omega] at hirange
        simp at hirange
    have hin : i < n := by omega
    subst hri
    by_cases hie : i = expected
    · subst hie
      obtain ⟨pre, suf, hsplit, hmap, hdrain, hsufgt, hsufsrt⟩ :=
        drainBuf_spec buf (i + 1) hsrt (fun x hx => by have := hgt x hx; omega)
      have hbufmk : ∀ x ∈ buf,
          (fun j => (⟨j, images j, none⟩ : FrameRes α ε)) x.frame = x := by
        intro x hx
        have hxm := hperm.mem_iff.mp (List.mem_append_left _ hx)
        obtain ⟨j, _, hjx⟩ := List.mem_map.mp hxm
        rw [← hjx]
      have hpre : pre = (List.range' (i + 1) pre.length).map
          (fun j => (⟨j, images j, none⟩ : FrameRes α ε)) := by
        rw [← hmap]
        exact (map_frame_map _ pre
          (fun x hx => hbufmk x (by rw [hsplit]; exact List.mem_append_left _ hx))).symm
      have hlen0 := hperm.length_eq
      simp only [List.length_append, List.length_cons, List.length_map,
        List.length_range'] at hlen0
      have hbuflen : buf.length = pre.length + suf.length := by
        rw [hsplit, List.length_append]
      have hr1 : List.range' i (n - i) = i :: List.range' (i + 1) (n - i - 1) := by
        obtain ⟨m, hm⟩ : ∃ m, n - i = m + 1 := ⟨n - i - 1, by omega⟩
        rw [hm, List.range'_succ, show m = n - i - 1 by omega]
        simp
      have hperm3 : (buf ++ rest).Perm
          ((List.range' (i + 1) (n - i - 1)).map
            (fun j => (⟨j, images j, none⟩ : FrameRes α ε))) := by
        have hmid : (buf ++ (⟨i, images i, none⟩ : FrameRes α ε) :: rest).Perm
            ((⟨i, images i, none⟩ : FrameRes α ε) :: (buf ++ rest)) :=
          List.perm_middle
        have h4 := hmid.symm.trans hperm
        rw [hr1, List.map_cons] at h4
        exact h4.cons_inv
      have hm2 : n - i - 1 = (n - (i + 1 + pre.length)) + pre.length := by omega
      have hr2 : List.range' (i + 1) (n - i - 1)
          = List.range' (i + 1) pre.length
            ++ List.range' (i + 1 + pre.length) (n - (i + 1 + pre.length)) := by
        have h5 := List.range'_append (i + 1) pre.length (n - (i + 1 + pre.length)) 1
        rw [one_mul] at h5
        rw [hm2]
        exact h5.symm
      have hperm4 : (suf ++ rest).Perm
          ((List.range' (i + 1 + pre.length) (n - (i + 1 + pre.length))).map
            (fun j => (⟨j, images j, none⟩ : FrameRes α ε))) := by
        have h6 := hperm3
        rw [hsplit, hr2, List.map_append, ← hpre, List.append_assoc] at h6
        exact (List.perm_append_left_iff pre).mp h6
      have hih := ih (i + 1 + pre.length) suf hperm4 hsufsrt hsufgt
      have hos : pre.map (fun f => Out.img f.img)
          = (List.range' (i + 1) pre.length).map
            (fun j => (Out.img (images j) : Out α ε)) := by
        conv_lhs => rw [hpre]
        rw [List.map_map]
        rfl
      rw [frameLoop, if_neg (by omega)]
      show (match (⟨i, images i, none⟩ : FrameRes α ε).err with
        | some e => [Out.err e]
        | none => _) = _
      dsimp only
      rw [if_pos rfl, hdrain]
      dsimp only
      rw [hih, hos, hr1, List.map_cons, hr2, List.map_append]
    · have hbig : (buf ++ (⟨i, images i, none⟩ : FrameRes α ε) :: rest).Pairwise
          (fun a b => a.frame ≠ b.frame) := by
        have hsymm : ∀ {x y : FrameRes α ε}, x.frame ≠ y.frame → y.frame ≠ x.frame :=
          fun hab => hab.symm
        refine (List.Perm.pairwise_iff hsymm hperm).mpr ?_
        rw [List.pairwise_map]
        exact (List.pairwise_lt_range' expected (n - expected) 1).imp
          (fun h => Nat.ne_of_lt h)
      have hdist : (buf ++ [(⟨i, images i, none⟩ : FrameRes α ε)]).Pairwise
          (fun a b => a.frame ≠ b.frame) := by
        refine List.Pairwise.sublist ?_ hbig
        exact List.Sublist.append_left ((List.nil_sublist rest).cons₂ _) buf
      obtain ⟨hbp, hbs⟩ := sortBuf_spec _ hdist
      have hperm5 : (sortBuf (buf ++ [(⟨i, images i, none⟩ : FrameRes α ε)]) ++ rest).Perm
          ((List.range' expected (n - expected)).map
            (fun j => (⟨j, images j, none⟩ : FrameRes α ε))) := by
        refine ((hbp.append_right rest).trans ?_).trans hperm
        rw [List.append_assoc]
        exact List.Perm.refl _
      have hgt2 : ∀ x ∈ sortBuf (buf ++ [(⟨i, images i, none⟩ : FrameRes α ε)]),
          expected < x.frame := by
        intro x hx
        rcases List.mem_append.mp (hbp.mem_iff.mp hx) with hx1 | hx2
        · exact hgt x hx1
        · rw [List.mem_singleton.mp hx2]
          show expected < i
          omega
      have hih := ih expected _ hperm5 hbs hgt2
      rw [frameLoop, if_neg (by omega)]
      show (match (⟨i, images i, none⟩ : FrameRes α ε).err with
        | some e => [Out.err e]
        | none => _) = _
      dsimp only
      rw [if_neg (by simpa using hie)]
      exact hih

/-- **C1.**  Order-preserving reassembly: for a render of `n` frames, if
the worker results arrive at the reassembly stage in any order — any
permutation of one error-free result per frame index `0, ..., n-1` — the
pipeline emits to the consumer exactly the frame images in strictly
ascending index order `0, 1, ..., n-1`, buffering early results until the
next expected index becomes available. -/
theorem frames_emitted_in_ascending_order {α ε : Type} (n : ℕ) (images : ℕ → α)
    (arr : List (FrameRes α ε))
    (hperm : arr.Perm ((List.range n).map
      (fun i => (⟨i, images i, none⟩ : FrameRes α ε)))) :
    frameLoop n arr 0 [] = (List.range n).map (fun i => Out.img (images i)) := by
  have h := frameLoop_ordered_aux n images arr 0 [] ?_ List.Pairwise.nil (by simp)
  · rw [h, List.range_eq_range']
    simp
  · rw [List.range_eq_range'] at hperm
    simpa using hperm

/-- Witness for `frames_emitted_in_ascending_order`: five frames completing
in the order 3, 0, 2, 4, 1 are emitted as 0, 1, 2, 3, 4. -/
theorem frames_emitted_in_ascending_order_witness :
    frameLoop 5 ([⟨3, 3, none⟩, ⟨0, 0, none⟩, ⟨2, 2, none⟩, ⟨4, 4, none⟩,
        ⟨1, 1, none⟩] : List (FrameRes ℕ ℕ)) 0 []
      = (List.range 5).map (fun i => Out.img i) :=
  frames_emitted_in_ascending_order 5 (fun i => i) _ (by decide)

/-- Inserting into the buffer grows it by exactly one element. -/
theorem insertByFrame_length {α ε : Type} (r : FrameRes α ε) :
    ∀ l : List (FrameRes α ε), (insertByFrame r l).length = l.length + 1 := by
  intro l
  induction l with
  | nil => rfl
  | cons b bs ih =>
    rw [insertByFrame]
    by_cases hle : r.frame ≤ b.frame
    · rw [if_pos hle]
      rfl
    · rw [if_neg hle]
      simp [ih]

/-- Sorting the buffer preserves its length. -/
theorem sortBuf_length {α ε : Type} :
    ∀ (l acc : List (FrameRes α ε)),
      (l.foldl (fun acc r => insertByFrame r acc) acc).length
        = acc.length + l.length := by
  intro l
  induction l with
  | nil => intro acc; simp
  | cons r rest ih =>
    intro acc
    rw [List.foldl_cons, ih (insertByFrame r acc), insertByFrame_length]
    simp only [List.length_cons]
    omega

/-- A run over error-free arrivals emits only images. -/
theorem frameLoop_ok_outputs {α ε : Type} (n : ℕ) :
    ∀ (arr : List (FrameRes α ε)) (expected : ℕ) (buf : List (FrameRes α ε)),
      (∀ x ∈ arr, x.err = none) →
      ∀ o ∈ frameLoop n arr expected buf, ∃ a, o = Out.img a := by
  intro arr
  induction arr with
  | nil =>
    intro expected buf _ o ho
    rw [frameLoop] at ho
    by_cases hle : n ≤ expected
    · rw [if_pos hle] at ho
      simp at ho
    · rw [if_neg hle] at ho
      simp at ho
  | cons r rest ih =>
    intro expected buf hok o ho
    rw [frameLoop] at ho
    by_cases hle : n ≤ expected
    · rw [if_pos hle] at ho
      simp at ho
    · rw [if_neg hle] at ho
      have hr := hok r (List.mem_cons_self r rest)
      simp only [hr] at ho
      by_cases hf : r.frame = expected
      · rw [if_pos hf] at ho
        rcases hd : drainBuf buf (expected + 1) with ⟨os, e2, b2⟩
        rw [hd] at ho
        dsimp only at ho
        rcases List.mem_cons.mp ho with rfl | ho2
        · exact ⟨r.img, rfl⟩
        rcases List.mem_append.mp ho2 with ho3 | ho4
        · have h5 := drainBuf_outputs buf (expected + 1) o
          rw [hd] at h5
          exact h5 ho3
        · exact ih e2 b2 (fun x hx => hok x (List.mem_cons_of_mem _ hx)) o ho4
      · rw [if_neg hf] at ho
        exact ih expected _ (fun x hx => hok x (List.mem_cons_of_mem _ hx)) o ho

/-- Splitting the reassembly run at the first erroneous arrival: as long as
the loop cannot have filled its quota (expected index plus pending and
buffered results below `n`), processing `pre ++ err :: post` emits exactly
what processing `pre` emits, followed by the error as the last element —
nothing of `post` and nothing buffered is emitted after it. -/
theorem frameLoop_error_aux {α ε : Type} (n : ℕ) (i : ℕ) (aimg : α) (e : ε)
    (post : List (FrameRes α ε)) :
    ∀ (pre : List (FrameRes α ε)) (expected : ℕ) (buf : List (FrameRes α ε)),
      (∀ x ∈ pre, x.err = none) →
      expected + pre.length + buf.length < n →
      frameLoop n (pre ++ ⟨i, aimg, some e⟩ :: post) expected buf
        = frameLoop n pre expected buf ++ [Out.err e] := by
  intro pre
  induction pre with
  | nil =>
    intro expected buf _ hlt
    have h1 : frameLoop n ([] : List (FrameRes α ε)) expected buf = [] := by
      rw [frameLoop]
      split_ifs <;> rfl
    rw [List.nil_append, h1, List.nil_append, frameLoop, if_neg (by omega)]
  | cons r pre2 ih =>
    intro expected buf hok hlt
    have hr := hok r (List.mem_cons_self r pre2)
    have hg : ¬ n ≤ expected := by
      simp only [List.length_cons] at hlt
      omega
    rw [List.cons_append]
    conv_lhs => rw [frameLoop]
    conv_rhs => rw [frameLoop]
    simp only [if_neg hg, hr]
    by_cases hf : r.frame = expected
    · simp only [if_pos hf]
      rcases hd : drainBuf buf (expected + 1) with ⟨os, e2, b2⟩
      dsimp only
      have hcnt := drainBuf_count buf (expected + 1)
      rw [hd] at hcnt
      dsimp only at hcnt
      rw [ih e2 b2 (fun x hx => hok x (List.mem_cons_of_mem _ hx)) (by
        simp only [List.length_cons] at hlt
        omega)]
      simp
    · simp only [if_neg hf]
      refine ih expected _ (fun x hx => hok x (List.mem_cons_of_mem _ hx)) ?_
      have hsl : (sortBuf (buf ++ [r])).length = buf.length + 1 := by
        rw [sortBuf, sortBuf_length]
        simp
      simp only [List.length_cons] at hlt
      omega

/-- **C9.**  A failing frame job aborts the pipeline: when the error-free
results of `pre` (at most the other frames of the render, hence fewer than
`n`) arrive first and then a result carrying an error arrives, the consumer
sees exactly the frames already emitted while processing `pre` — all of
them images — followed by the error as the next and last element of the
output; no further frame is emitted after the error, neither from later
arrivals nor from results sitting in the reassembly buffer. -/
theorem error_aborts_pipeline {α ε : Type} (n : ℕ) (pre post : List (FrameRes α ε))
    (i : ℕ) (aimg : α) (e : ε)
    (hok : ∀ x ∈ pre, x.err = none) (hlen : pre.length < n) :
    frameLoop n (pre ++ ⟨i, aimg, some e⟩ :: post) 0 []
      = frameLoop n pre 0 [] ++ [Out.err e] ∧
    ∀ o ∈ frameLoop n pre 0 [], ∃ a, o = Out.img a := by
  constructor
  · exact frameLoop_error_aux n i aimg e post pre 0 [] hok (by simpa using hlen)
  · exact frameLoop_ok_outputs n pre 0 [] hok

/-- Witness for `error_aborts_pipeline`: in a three-frame render, frame 2
arrives early (buffered), frame 0 arrives and is emitted, then frame 1
fails; the consumer receives the frame-0 image and then the error — the
buffered frame 2 and the late arrival are dropped. -/
theorem error_aborts_pipeline_witness :
    frameLoop 3 (([⟨2, 2, none⟩, ⟨0, 0, none⟩] : List (FrameRes ℕ ℕ))
        ++ ⟨1, 1, some 7⟩ :: [⟨9, 9, none⟩])  0 []
      = frameLoop 3 ([⟨2, 2, none⟩, ⟨0, 0, none⟩] : List (FrameRes ℕ ℕ)) 0 []
        ++ [Out.err 7] ∧
    ∀ o ∈ frameLoop 3 ([⟨2, 2, none⟩, ⟨0, 0, none⟩] : List (FrameRes ℕ ℕ)) 0 [],
      ∃ a, o = Out.img a :=
  error_aborts_pipeline 3 [⟨2, 2, none⟩, ⟨0, 0, none⟩] [⟨9, 9, none⟩] 1 1 7
    (by decide) (by decide)
